import Mathlib

/-!
Shallow embedding of the analysis pipeline of `src/worker.py` (Rooket worker).

The pipeline walks each game's move list, asks a chess engine for an
evaluation of each resulting position, detects evaluation swings above a
threshold, accumulates candidates across games with an early-stop budget,
and finally sorts the candidates by swing descending and truncates.

External collaborators (the chess library's board replay and the engine
subprocess) are modelled as data carried by the input: each ply of a game
records the position string, the move identifier, the side to move after
the move, and the engine's reply for that position.  Python floats are
modelled as rationals; Python `round(x, 2)` is modelled as round-half-even
at two decimals.
-/

/-- The constant `BATCH_SIZE = 5` of worker.py. -/
def BATCH_SIZE : Nat := 5

/-- The constant `TARGET_PUZZLES = 8` of worker.py. -/
def TARGET_PUZZLES : Nat := 8

/-- The constant `MIN_EVAL_SWING = 1.5` of worker.py, in pawn units. -/
def MIN_EVAL_SWING : ℚ := 3 / 2

/-- Round a rational to the nearest integer, halves to the even neighbour
(the rounding Python's `round` uses). -/
def roundHalfEven (x : ℚ) : ℤ :=
  let f : ℤ := ⌊x⌋
  let frac : ℚ := x - f
  if frac < 1 / 2 then f
  else if 1 / 2 < frac then f + 1
  else if f % 2 = 0 then f else f + 1

/-- Python's `round(x, 2)`: round to two decimal places, halves to even. -/
def round2 (x : ℚ) : ℚ := (roundHalfEven (100 * x) : ℚ) / 100

/-- An engine score, as in the chess library: either a centipawn value or
a mate-in-n announcement (n > 0 favours the point of view, n ≤ 0 means the
point of view is being mated). -/
inductive EngScore where
  | cp (x : ℤ)
  | mate (n : ℤ)
deriving DecidableEq, Repr

/-- Negation of an engine score (used when flipping point of view):
`-Cp(x) = Cp(-x)` and `-Mate(n) = Mate(-n)`. -/
def EngScore.neg : EngScore → EngScore
  | .cp x => .cp (-x)
  | .mate n => .mate (-n)

/-- The chess library's `Score.score(mate_score=m)`: a centipawn value is
returned as is; `Mate(n)` becomes `m - n` when `0 < n` and `-m - n`
otherwise. -/
def EngScore.score (mateScore : ℤ) : EngScore → ℤ
  | .cp x => x
  | .mate n => if 0 < n then mateScore - n else -mateScore - n

/-- The chess library's `PovScore`: a relative score together with the
colour (side to move) it is relative to.  `true` plays the role of White. -/
structure PovScore where
  relative : EngScore
  turn : Bool
deriving DecidableEq, Repr

/-- The chess library's `PovScore.pov(color)`: the relative score if the
colour matches, its negation otherwise. -/
def PovScore.pov (s : PovScore) (color : Bool) : EngScore :=
  if s.turn = color then s.relative else s.relative.neg

/-- Line 50 of worker.py:
`info["score"].pov(board.turn).score(mate_score=10000) / 100.0`
with `info` the engine reply and `board.turn` the side to move. -/
def scoreUsed (info : PovScore) (turn : Bool) : ℚ :=
  (((info.pov turn).score 10000 : ℤ) : ℚ) / 100

/-- The engine's reply to one `engine.analyse` call: either an info
dictionary carrying a pov score, or a failure of the engine process. -/
inductive EngResp where
  | info (s : PovScore)
  | dead
deriving DecidableEq, Repr

/-- One successfully applied ply of a game, together with everything the
external collaborators yield for it: `board.fen()` after the push, the
move's UCI string, `board.turn` after the push, and the engine's reply for
the resulting position. -/
structure PlyOk where
  fen : String
  uci : String
  turn : Bool
  resp : EngResp
deriving DecidableEq, Repr

instance : Inhabited PlyOk := ⟨⟨"", "", true, .dead⟩⟩

/-- One ply of a game: either the move applies (with its collaborator
data), or `board.push` raises an IllegalMoveError for it. -/
inductive Ply where
  | ok (p : PlyOk)
  | illegal
deriving DecidableEq, Repr

/-- A game, as the analysis loop consumes it: the ordered list of plies of
its mainline. -/
abbrev Game := List Ply

instance : Inhabited Game := ⟨([] : List Ply)⟩

/-- A candidate puzzle as built at lines 55-60 of worker.py. -/
structure Puzzle where
  fen : String
  swing : ℚ
  last_move : String
  eval : ℚ
deriving DecidableEq, Repr

/-- The two ways the analysis of a game can raise. -/
inductive RunErr where
  | illegalMove
  | engineFailure
deriving DecidableEq, Repr

/-- The evaluation `analyze_game` computes for one successfully applied
ply, if the engine replied. -/
def plyScore (p : PlyOk) : Option ℚ :=
  match p.resp with
  | .info s => some (scoreUsed s p.turn)
  | .dead => none

/-- The loop body of `analyze_game` (lines 47-61 of worker.py), starting
at ply index `i` with `prev` playing the role of `prev_eval`.  Returns the
indices of the plies for which `engine.analyse` was called, and either the
emitted puzzles or the error that propagates. -/
def analyzeGo (i : Nat) (prev : Option ℚ) :
    Game → List Nat × Except RunErr (List Puzzle)
  | [] => ([], .ok [])
  | .illegal :: _ => ([], .error .illegalMove)
  | .ok p :: rest =>
    match p.resp with
    | .dead => ([i], .error .engineFailure)
    | .info s =>
      let score : ℚ := scoreUsed s p.turn
      let emitted : List Puzzle :=
        match prev with
        | none => []
        | some prevEval =>
          if MIN_EVAL_SWING ≤ |score - prevEval| then
            [⟨p.fen, round2 |score - prevEval|, p.uci, round2 score⟩]
          else []
      let r := analyzeGo (i + 1) (some score) rest
      (i :: r.1,
       match r.2 with
       | .ok ps => .ok (emitted ++ ps)
       | .error e => .error e)

/-- `analyze_game` of worker.py (lines 41-62): replay one game, evaluate
each position, emit a candidate whenever the absolute difference with the
previous evaluation reaches `MIN_EVAL_SWING`. -/
def analyze_game (g : Game) : List Nat × Except RunErr (List Puzzle) :=
  analyzeGo 0 none g

/-- The inner `for game in batch` loop of `generate_puzzles`
(lines 110-114 of worker.py): analyze each game, extend the accumulator,
and break once it holds at least `TARGET_PUZZLES` candidates.  Games are
paired with their index in the full input list; the returned trace records
every `engine.analyse` call as a (game index, ply index) pair.  An
exception from `analyze_game` propagates immediately. -/
def runGames (acc : List Puzzle) :
    List (Nat × Game) → List (Nat × Nat) × Except RunErr (List Puzzle)
  | [] => ([], .ok acc)
  | (gi, g) :: rest =>
    let a := analyze_game g
    let callsG := a.1.map (fun j => (gi, j))
    match a.2 with
    | .error e => (callsG, .error e)
    | .ok found =>
      let acc' := acc ++ found
      if TARGET_PUZZLES ≤ acc'.length then (callsG, .ok acc')
      else
        let r := runGames acc' rest
        (callsG ++ r.1, r.2)

/-- The outer batch loop of `generate_puzzles` (lines 107-116 of
worker.py): run the inner loop on each batch and break once the
accumulator holds at least `TARGET_PUZZLES` candidates. -/
def runBatches (acc : List Puzzle) :
    List (List (Nat × Game)) → List (Nat × Nat) × Except RunErr (List Puzzle)
  | [] => ([], .ok acc)
  | b :: bs =>
    let r := runGames acc b
    match r.2 with
    | .error e => (r.1, .error e)
    | .ok acc' =>
      if TARGET_PUZZLES ≤ acc'.length then (r.1, .ok acc')
      else
        let r' := runBatches acc' bs
        (r.1 ++ r'.1, r'.2)

/-- Split a list into consecutive chunks of size `n`, as
`range(0, len(games), n)` slicing does for `n ≥ 1`. -/
def chunks (n : Nat) : List α → List (List α)
  | [] => []
  | x :: xs => (x :: xs).take n :: chunks n (xs.drop (n - 1))
termination_by l => l.length
decreasing_by
  simp only [List.length_cons, List.length_drop]
  omega

/-- The comparison `sorted(..., key=lambda x: x["swing"], reverse=True)`
sorts by: `a` may come before `b` iff `b`'s swing is at most `a`'s. -/
def swingLE (a b : Puzzle) : Bool := decide (b.swing ≤ a.swing)

/-- Line 119 of worker.py, the sort:
`sorted(puzzles, key=lambda x: x["swing"], reverse=True)` — a stable sort
by swing descending. -/
def pySortDesc (l : List Puzzle) : List Puzzle :=
  l.mergeSort swingLE

/-- Line 119 of worker.py, sort plus slice `[:target]`. -/
def rankPuzzles (target : Nat) (l : List Puzzle) : List Puzzle :=
  (pySortDesc l).take target

/-- The observable outcome of one `generate_puzzles` run: the trace of
`engine.analyse` calls (game index, ply index), how many times
`engine.quit()` ran, and either the returned puzzle list or the exception
that escaped. -/
structure RunOut where
  calls : List (Nat × Nat)
  quitCount : Nat
  result : Except RunErr (List Puzzle)
deriving Repr

/-- The analysis core of `generate_puzzles` (lines 104-123 of worker.py),
taking the parsed games as input (fetch/cache/upload are external I/O):
open the engine, run the batch loops, and — only when no exception was
raised — call `engine.quit()` once and return the sorted, truncated
puzzle list.  An exception skips `engine.quit()` and propagates. -/
def generate_puzzles (games : List Game) : RunOut :=
  let r := runBatches [] (chunks BATCH_SIZE games.enum)
  match r.2 with
  | .error e => ⟨r.1, 0, .error e⟩
  | .ok acc => ⟨r.1, 1, .ok (rankPuzzles TARGET_PUZZLES acc)⟩


/-! ## The spec's candidate rule (for comparison with `analyze_game`) -/

/-- The per-position evaluations of a run of all-applicable plies, in
order (0 stands in for a missing engine reply; the comparison theorems
assume every reply is present). -/
def evalsOf (ps : List PlyOk) : List ℚ := ps.map (fun p => (plyScore p).getD 0)

/-- The candidate the spec's rule emits for a step: given (ply i,
(e_(i-1), e_i)), a candidate iff `abs(e_i - e_(i-1)) >= MIN_EVAL_SWING`,
storing the swing and the evaluation rounded to two decimals. -/
def specCand (x : PlyOk × ℚ × ℚ) : Option Puzzle :=
  if MIN_EVAL_SWING ≤ |x.2.2 - x.2.1| then
    some ⟨x.1.fen, round2 |x.2.2 - x.2.1|, x.1.uci, round2 x.2.2⟩
  else none

/-- The spec's Swing Detector rule, stated from its words: pair each ply
of index `i ≥ 1` with the evaluations (e_(i-1), e_i) and emit a candidate
exactly when the absolute swing reaches the threshold. -/
def specCandidates (ps : List PlyOk) : List Puzzle :=
  ((ps.drop 1).zip ((evalsOf ps).zip ((evalsOf ps).drop 1))).filterMap specCand

@[simp] lemma evalsOf_nil : evalsOf [] = [] := rfl

@[simp] lemma evalsOf_cons (p : PlyOk) (rest : List PlyOk) :
    evalsOf (p :: rest) = (plyScore p).getD 0 :: evalsOf rest := rfl

lemma analyzeGo_spec (ps : List PlyOk) :
    ∀ (i : Nat) (prev : ℚ), (∀ p ∈ ps, (plyScore p).isSome) →
    (analyzeGo i (some prev) (ps.map Ply.ok)).2 =
      .ok ((ps.zip ((prev :: evalsOf ps).zip (evalsOf ps))).filterMap specCand) := by
  induction ps with
  | nil => intro i prev _; rfl
  | cons p rest ih =>
    intro i prev hok
    have hp : (plyScore p).isSome := hok p (List.mem_cons_self _ _)
    match hresp : p.resp with
    | .dead => simp [plyScore, hresp] at hp
    | .info s =>
      have hscore : (plyScore p).getD 0 = scoreUsed s p.turn := by
        simp [plyScore, hresp]
      have hrest := ih (i + 1) (scoreUsed s p.turn)
        (fun q hq => hok q (List.mem_cons_of_mem _ hq))
      simp only [List.map_cons, analyzeGo, hresp, hrest, evalsOf_cons, hscore,
        List.zip_cons_cons, List.filterMap_cons]
      by_cases hc : MIN_EVAL_SWING ≤ |scoreUsed s p.turn - prev| <;>
        simp [specCand, hc]

/-- The engine replies of the spec's concrete scenario: centipawn scores
20, 30, 210, 200, -100 (pawns 0.2, 0.3, 2.1, 2.0, -1.0), each already
relative to the side to move. -/
def demoPly (fen uci : String) (cp : ℤ) : PlyOk := ⟨fen, uci, true, .info ⟨.cp cp, true⟩⟩

/-- The concrete scenario's plies, indexed 0 to 4 by their names. -/
def demoPlies : List PlyOk :=
  [demoPly "fen0" "m0" 20, demoPly "fen1" "m1" 30, demoPly "fen2" "m2" 210,
   demoPly "fen3" "m3" 200, demoPly "fen4" "m4" (-100)]

/-- C1: `analyze_game` emits a candidate at step i (i ≥ 1) iff the
absolute difference of the evaluations at steps i and i-1 reaches
`MIN_EVAL_SWING`, storing the swing rounded to two decimals (its
candidate list equals the spec rule's list `specCandidates`); and on the
concrete evaluations [0.2, 0.3, 2.1, 2.0, -1.0] the candidates are
exactly the ones of steps 2 and 4, with stored swings 1.8 and 3.0. -/
theorem C1_swing_detector (ps : List PlyOk)
    (hok : ∀ p ∈ ps, (plyScore p).isSome) :
    (analyze_game (ps.map Ply.ok)).2 = .ok (specCandidates ps) ∧
    (analyze_game (demoPlies.map Ply.ok)).2 =
      .ok [⟨"fen2", 9/5, "m2", 21/10⟩, ⟨"fen4", 3, "m4", -1⟩] := by
  constructor
  · match ps, hok with
    | [], _ => rfl
    | p :: rest, hok =>
      have hp : (plyScore p).isSome := hok p (List.mem_cons_self _ _)
      match hresp : p.resp with
      | .dead => simp [plyScore, hresp] at hp
      | .info s =>
        have hscore : (plyScore p).getD 0 = scoreUsed s p.turn := by
          simp [plyScore, hresp]
        have hrest := analyzeGo_spec rest 1 (scoreUsed s p.turn)
          (fun q hq => hok q (List.mem_cons_of_mem _ hq))
        simp [analyze_game, analyzeGo, hresp, hrest, specCandidates, hscore]
  · norm_num [analyze_game, analyzeGo, demoPlies, demoPly, scoreUsed,
      PovScore.pov, EngScore.score, MIN_EVAL_SWING, round2, roundHalfEven,
      abs_of_nonneg, abs_of_nonpos]

/-- Witness for C1 at the scenario input: every engine reply is present,
and the theorem applies. -/
theorem C1_swing_detector_witness :
    (analyze_game (demoPlies.map Ply.ok)).2 = .ok (specCandidates demoPlies) :=
  (C1_swing_detector demoPlies (by intro p hp; fin_cases hp <;> rfl)).1

/-! ## Games with fewer than two moves (C8) -/

/-- C8: a game with fewer than 2 moves yields no candidate — there is no
previous evaluation to compare against. -/
theorem C8_short_game_no_candidates (g : Game) (hlen : g.length < 2)
    (l : List Puzzle) (hres : (analyze_game g).2 = .ok l) : l = [] := by
  match g, hlen with
  | [], _ =>
    simp [analyze_game, analyzeGo] at hres
    exact hres
  | [Ply.illegal], _ => simp [analyze_game, analyzeGo] at hres
  | [Ply.ok p], _ =>
    match hresp : p.resp with
    | .dead => simp [analyze_game, analyzeGo, hresp] at hres
    | .info s =>
      simp [analyze_game, analyzeGo, hresp] at hres
      exact hres

/-- Witness for C8: a concrete one-move game analyzes to no candidates. -/
theorem C8_short_game_no_candidates_witness :
    ([Ply.ok (demoPly "f0" "e2e4" 20)] : Game).length < 2 ∧ ([] : List Puzzle) = [] :=
  ⟨by decide,
   C8_short_game_no_candidates [Ply.ok (demoPly "f0" "e2e4" 20)] (by decide) []
     (by simp [analyze_game, analyzeGo, demoPly])⟩

/-! ## The empty batch (C10) -/

lemma generate_puzzles_nil : generate_puzzles [] = ⟨[], 1, .ok []⟩ := by
  simp [generate_puzzles, chunks, runBatches, rankPuzzles, pySortDesc]

/-- C10: on an empty list of games the run makes no engine call, quits the
engine once, and returns the empty puzzle list. -/
theorem C10_no_games : generate_puzzles [] = ⟨[], 1, .ok []⟩ :=
  generate_puzzles_nil

/-! ## Rounding never drops a passing swing below the threshold (C9) -/

lemma le_roundHalfEven (z : ℚ) : z - 1 / 2 ≤ (roundHalfEven z : ℚ) := by
  have h1 := Int.floor_le z
  have h2 := Int.lt_floor_add_one z
  simp only [roundHalfEven]
  split_ifs <;> push_cast <;> linarith

lemma round2_threshold {x : ℚ} (hx : MIN_EVAL_SWING ≤ x) :
    MIN_EVAL_SWING ≤ round2 x := by
  rw [MIN_EVAL_SWING] at hx ⊢
  have h := le_roundHalfEven (100 * x)
  have h149 : (149 : ℤ) < roundHalfEven (100 * x) := by
    have : ((149 : ℤ) : ℚ) < (roundHalfEven (100 * x) : ℚ) := by
      push_cast
      linarith
    exact_mod_cast this
  have h150 : ((150 : ℤ) : ℚ) ≤ (roundHalfEven (100 * x) : ℚ) := by
    exact_mod_cast (by omega : (150 : ℤ) ≤ roundHalfEven (100 * x))
  rw [round2]
  push_cast at h150
  linarith

lemma analyzeGo_swing_ge (g : Game) :
    ∀ (i : Nat) (prev : Option ℚ) (l : List Puzzle),
      (analyzeGo i prev g).2 = .ok l → ∀ q ∈ l, MIN_EVAL_SWING ≤ q.swing := by
  induction g with
  | nil =>
    intro i prev l h q hq
    simp [analyzeGo] at h
    subst h
    simp at hq
  | cons x rest ih =>
    intro i prev l h q hq
    match x with
    | .illegal => simp [analyzeGo] at h
    | .ok p =>
      match hresp : p.resp with
      | .dead => simp [analyzeGo, hresp] at h
      | .info s =>
        simp only [analyzeGo, hresp] at h
        cases hr : (analyzeGo (i + 1) (some (scoreUsed s p.turn)) rest).2 with
        | error e => rw [hr] at h; simp at h
        | ok ps =>
          rw [hr] at h
          simp only [Except.ok.injEq] at h
          subst h
          rcases List.mem_append.mp hq with hq | hq
          · match prev with
            | none => simp at hq
            | some prevEval =>
              by_cases hc : MIN_EVAL_SWING ≤ |scoreUsed s p.turn - prevEval|
              · simp only [hc, if_pos, List.mem_singleton] at hq
                subst hq
                exact round2_threshold hc
              · simp [hc] at hq
          · exact ih (i + 1) (some (scoreUsed s p.turn)) ps hr q hq

lemma runGames_swing_ge :
    ∀ (l : List (Nat × Game)) (acc res : List Puzzle),
      (runGames acc l).2 = .ok res → (∀ q ∈ acc, MIN_EVAL_SWING ≤ q.swing) →
      ∀ q ∈ res, MIN_EVAL_SWING ≤ q.swing := by
  intro l
  induction l with
  | nil =>
    intro acc res h hacc
    simp [runGames] at h
    subst h
    exact hacc
  | cons x rest ih =>
    intro acc res h hacc
    obtain ⟨gi, g⟩ := x
    simp only [runGames] at h
    cases ha : (analyze_game g).2 with
    | error e => rw [ha] at h; simp at h
    | ok found =>
      rw [ha] at h
      have hfound : ∀ q ∈ acc ++ found, MIN_EVAL_SWING ≤ q.swing := by
        intro q hq
        rcases List.mem_append.mp hq with hq | hq
        · exact hacc q hq
        · exact analyzeGo_swing_ge g 0 none found ha q hq
      by_cases hb : TARGET_PUZZLES ≤ (acc ++ found).length
      · simp only [hb, if_pos, Except.ok.injEq] at h
        subst h
        exact hfound
      · simp only [hb, if_neg, not_false_iff] at h
        exact ih (acc ++ found) res h hfound

lemma runBatches_swing_ge :
    ∀ (bs : List (List (Nat × Game))) (acc res : List Puzzle),
      (runBatches acc bs).2 = .ok res → (∀ q ∈ acc, MIN_EVAL_SWING ≤ q.swing) →
      ∀ q ∈ res, MIN_EVAL_SWING ≤ q.swing := by
  intro bs
  induction bs with
  | nil =>
    intro acc res h hacc
    simp [runBatches] at h
    subst h
    exact hacc
  | cons b rest ih =>
    intro acc res h hacc
    simp only [runBatches] at h
    cases hr : (runGames acc b).2 with
    | error e => rw [hr] at h; simp at h
    | ok acc' =>
      rw [hr] at h
      have hacc' := runGames_swing_ge b acc acc' hr hacc
      by_cases hb : TARGET_PUZZLES ≤ acc'.length
      · simp only [hb, if_pos, Except.ok.injEq] at h
        subst h
        exact hacc'
      · simp only [hb, if_neg, not_false_iff] at h
        exact ih acc' res h hacc'

/-- C9: every puzzle in a returned list has swing at least
`MIN_EVAL_SWING` — the threshold is checked on the un-rounded swing and
rounding to two decimals cannot take a passing swing below 1.5. -/
theorem C9_output_swing_ge_threshold (games : List Game) (l : List Puzzle)
    (hres : (generate_puzzles games).result = .ok l) :
    ∀ q ∈ l, MIN_EVAL_SWING ≤ q.swing := by
  intro q hq
  simp only [generate_puzzles] at hres
  cases hr : (runBatches [] (chunks BATCH_SIZE games.enum)).2 with
  | error e => rw [hr] at hres; simp at hres
  | ok acc =>
    rw [hr] at hres
    simp only [Except.ok.injEq] at hres
    subst hres
    have hq' : q ∈ pySortDesc acc := List.mem_of_mem_take hq
    have hq'' : q ∈ acc := by
      simpa [pySortDesc] using hq'
    exact runBatches_swing_ge _ [] acc hr (by simp) q hq''

/-! ## Ranking: descending swing, stability, truncation (C3, C4) -/

lemma swingLE_trans (a b c : Puzzle) (h1 : swingLE a b) (h2 : swingLE b c) :
    swingLE a c := by
  simp only [swingLE, decide_eq_true_eq] at *
  exact le_trans h2 h1

lemma swingLE_total (a b : Puzzle) : swingLE a b || swingLE b a := by
  simp only [swingLE, Bool.or_eq_true, decide_eq_true_eq]
  exact le_total b.swing a.swing

lemma pySortDesc_pairwise (l : List Puzzle) :
    (pySortDesc l).Pairwise (fun p1 p2 => p2.swing ≤ p1.swing) := by
  have h := List.sorted_mergeSort swingLE_trans swingLE_total l
  exact h.imp (fun hab => by simpa [swingLE] using hab)

/-- C3: every returned puzzle list is sorted by descending swing (each
adjacent pair p1 before p2 has p1.swing ≥ p2.swing); ties keep encounter
order (two puzzles of equal swing that appear in the accumulator in some
order appear in the sorted list in that same order — a stable sort); and
ranking swings [3.0, 1.8, 1.6] with target 2 yields [3.0, 1.8]. -/
theorem C3_ranked_descending :
    (∀ (games : List Game) (l : List Puzzle),
        (generate_puzzles games).result = .ok l →
        l.Chain' (fun p1 p2 => p2.swing ≤ p1.swing)) ∧
    (∀ (l : List Puzzle) (a b : Puzzle), a.swing = b.swing →
        List.Sublist [a, b] l → List.Sublist [a, b] (pySortDesc l)) ∧
    rankPuzzles 2 [⟨"fa", 3, "ma", 1⟩, ⟨"fb", 9/5, "mb", 1⟩, ⟨"fc", 8/5, "mc", 1⟩] =
      [⟨"fa", 3, "ma", 1⟩, ⟨"fb", 9/5, "mb", 1⟩] := by
  refine ⟨?_, ?_, ?_⟩
  · intro games l hres
    simp only [generate_puzzles] at hres
    cases hr : (runBatches [] (chunks BATCH_SIZE games.enum)).2 with
    | error e => rw [hr] at hres; simp at hres
    | ok acc =>
      rw [hr] at hres
      simp only [Except.ok.injEq] at hres
      subst hres
      simp only [rankPuzzles]
      exact (List.Pairwise.sublist (List.take_sublist _ _)
        (pySortDesc_pairwise acc)).chain'
  · intro l a b hab hsub
    exact List.pair_sublist_mergeSort swingLE_trans swingLE_total
      (by simp [swingLE, hab]) hsub
  · have hsorted : ([⟨"fa", 3, "ma", 1⟩, ⟨"fb", 9/5, "mb", 1⟩,
        ⟨"fc", 8/5, "mc", 1⟩] : List Puzzle).Pairwise
        (fun a b => swingLE a b = true) := by
      norm_num [List.pairwise_cons, swingLE]
    rw [rankPuzzles, pySortDesc, List.mergeSort_of_sorted hsorted]
    rfl

/-- C4: the returned list has length `min targetPuzzleCount
totalCandidatesFound`, where the second argument is the size of the
candidate accumulator when the batch loop ends. -/
theorem C4_output_length (games : List Game) (acc l : List Puzzle)
    (hacc : (runBatches [] (chunks BATCH_SIZE games.enum)).2 = .ok acc)
    (hres : (generate_puzzles games).result = .ok l) :
    l.length = min TARGET_PUZZLES acc.length := by
  have h : (generate_puzzles games).result = .ok (rankPuzzles TARGET_PUZZLES acc) := by
    simp [generate_puzzles, hacc]
  rw [h] at hres
  obtain rfl : rankPuzzles TARGET_PUZZLES acc = l := Except.ok.inj hres
  simp [rankPuzzles, pySortDesc]

/-! ## Score perspective and mate mapping (C7) -/

/-- C7, counterexample to the claim as stated: a mate-in-3 reply relative
to the side to move maps to 99.97 pawns, not to a magnitude of exactly
100.0 pawns (10000 centipawns). -/
theorem C7_mate_in_three_not_100 :
    scoreUsed ⟨.mate 3, true⟩ true = 9997 / 100 ∧
    scoreUsed ⟨.mate 3, true⟩ true ≠ 100 ∧
    scoreUsed ⟨.mate 3, true⟩ true ≠ -100 := by
  norm_num [scoreUsed, PovScore.pov, EngScore.score]

/-- C7, amended: the score used for swing detection is the engine reply
taken from the perspective of the side to move at the evaluated position
(when the reply's pov colour is that side, the relative score is used
unchanged); a mate-in-n reply maps to the finite value (10000 - n)/100
pawns, a mated-in-n reply to (-10000 - n)/100 pawns, and whenever the
mate distance is at most 10000 the resulting magnitude is at most 100.0
pawns, so swing arithmetic stays finite. -/
theorem C7_score_perspective_and_mate (s : PovScore) (t : Bool) (n : ℤ)
    (hst : s.turn = t) :
    scoreUsed s t = ((s.relative.score 10000 : ℤ) : ℚ) / 100 ∧
    (0 < n → scoreUsed ⟨.mate n, t⟩ t = ((10000 - n : ℤ) : ℚ) / 100) ∧
    (n < 0 → scoreUsed ⟨.mate n, t⟩ t = ((-10000 - n : ℤ) : ℚ) / 100) ∧
    (|n| ≤ 10000 → |scoreUsed ⟨.mate n, t⟩ t| ≤ 100) := by
  refine ⟨by simp [scoreUsed, PovScore.pov, hst], ?_, ?_, ?_⟩
  · intro hn
    simp [scoreUsed, PovScore.pov, EngScore.score, hn]
  · intro hn
    simp [scoreUsed, PovScore.pov, EngScore.score, not_lt.mpr hn.le]
  · intro hn
    obtain ⟨h1, h2⟩ := abs_le.mp hn
    have h1' : (-10000 : ℚ) ≤ ((n : ℤ) : ℚ) := by exact_mod_cast h1
    have h2' : ((n : ℤ) : ℚ) ≤ 10000 := by exact_mod_cast h2
    by_cases h : 0 < n
    · have h3' : (0 : ℚ) < ((n : ℤ) : ℚ) := by exact_mod_cast h
      have hv : scoreUsed ⟨.mate n, t⟩ t = ((10000 - n : ℤ) : ℚ) / 100 := by
        simp [scoreUsed, PovScore.pov, EngScore.score, h]
      rw [hv, abs_le]
      constructor <;> push_cast <;> linarith
    · have h3' : ((n : ℤ) : ℚ) ≤ 0 := by exact_mod_cast not_lt.mp h
      have hv : scoreUsed ⟨.mate n, t⟩ t = ((-10000 - n : ℤ) : ℚ) / 100 := by
        simp [scoreUsed, PovScore.pov, EngScore.score, h]
      rw [hv, abs_le]
      constructor <;> push_cast <;> linarith

/-- Witness for C7: a concrete centipawn reply relative to the side to
move, and the mate-in-3 magnitude bound. -/
theorem C7_score_perspective_and_mate_witness :
    (⟨EngScore.cp 35, true⟩ : PovScore).turn = true ∧
    |(3 : ℤ)| ≤ 10000 ∧ |scoreUsed ⟨.mate 3, true⟩ true| ≤ 100 :=
  ⟨rfl, by decide,
   (C7_score_perspective_and_mate ⟨.cp 35, true⟩ true 3 rfl).2.2.2 (by decide)⟩

/-! ## Unfolding laws for the orchestrator loops -/

lemma runGames_nil (acc : List Puzzle) : runGames acc [] = ([], .ok acc) := rfl

lemma runGames_cons_error (acc : List Puzzle) (gi : Nat) (g : Game)
    (rest : List (Nat × Game)) (e : RunErr)
    (ha : (analyze_game g).2 = .error e) :
    runGames acc ((gi, g) :: rest) =
      ((analyze_game g).1.map (fun j => (gi, j)), .error e) := by
  simp only [runGames, ha]

lemma runGames_cons_ok_stop (acc : List Puzzle) (gi : Nat) (g : Game)
    (rest : List (Nat × Game)) (found : List Puzzle)
    (ha : (analyze_game g).2 = .ok found)
    (hb : TARGET_PUZZLES ≤ (acc ++ found).length) :
    runGames acc ((gi, g) :: rest) =
      ((analyze_game g).1.map (fun j => (gi, j)), .ok (acc ++ found)) := by
  simp only [runGames, ha, hb, if_pos]

lemma runGames_cons_ok_cont (acc : List Puzzle) (gi : Nat) (g : Game)
    (rest : List (Nat × Game)) (found : List Puzzle)
    (ha : (analyze_game g).2 = .ok found)
    (hb : ¬ TARGET_PUZZLES ≤ (acc ++ found).length) :
    runGames acc ((gi, g) :: rest) =
      ((analyze_game g).1.map (fun j => (gi, j)) ++ (runGames (acc ++ found) rest).1,
       (runGames (acc ++ found) rest).2) := by
  simp only [runGames, ha, hb, if_neg, not_false_iff]

lemma runBatches_nil (acc : List Puzzle) : runBatches acc [] = ([], .ok acc) := rfl

lemma runBatches_cons_error (acc : List Puzzle) (b : List (Nat × Game))
    (bs : List (List (Nat × Game))) (e : RunErr)
    (hr : (runGames acc b).2 = .error e) :
    runBatches acc (b :: bs) = ((runGames acc b).1, .error e) := by
  simp only [runBatches, hr]

lemma runBatches_cons_ok_stop (acc : List Puzzle) (b : List (Nat × Game))
    (bs : List (List (Nat × Game))) (acc' : List Puzzle)
    (hr : (runGames acc b).2 = .ok acc')
    (hb : TARGET_PUZZLES ≤ acc'.length) :
    runBatches acc (b :: bs) = ((runGames acc b).1, .ok acc') := by
  simp only [runBatches, hr, hb, if_pos]

lemma runBatches_cons_ok_cont (acc : List Puzzle) (b : List (Nat × Game))
    (bs : List (List (Nat × Game))) (acc' : List Puzzle)
    (hr : (runGames acc b).2 = .ok acc')
    (hb : ¬ TARGET_PUZZLES ≤ acc'.length) :
    runBatches acc (b :: bs) =
      ((runGames acc b).1 ++ (runBatches acc' bs).1, (runBatches acc' bs).2) := by
  simp only [runBatches, hr, hb, if_neg, not_false_iff]

/-- Splitting the inner loop's game list: running the loop on `xs ++ ys`
first runs it on `xs`; an error or a met budget inside a nonempty `xs`
ends the run there, otherwise the loop continues through `ys`. -/
lemma runGames_append (xs : List (Nat × Game)) :
    ∀ (ys : List (Nat × Game)) (acc : List Puzzle),
      runGames acc (xs ++ ys) =
        (match runGames acc xs with
         | (cs, .error e) => (cs, .error e)
         | (cs, .ok acc') =>
           if TARGET_PUZZLES ≤ acc'.length ∧ xs ≠ [] then (cs, .ok acc')
           else (cs ++ (runGames acc' ys).1, (runGames acc' ys).2)) := by
  induction xs with
  | nil =>
    intro ys acc
    simp [runGames_nil]
  | cons x xs' ih =>
    intro ys acc
    obtain ⟨gi, g⟩ := x
    cases ha : (analyze_game g).2 with
    | error e =>
      rw [List.cons_append, runGames_cons_error _ _ _ _ _ ha,
        runGames_cons_error _ _ _ _ _ ha]
    | ok found =>
      by_cases hb : TARGET_PUZZLES ≤ (acc ++ found).length
      · have hb' : TARGET_PUZZLES ≤ acc.length + found.length := by
          simpa using hb
        rw [List.cons_append, runGames_cons_ok_stop _ _ _ _ _ ha hb,
          runGames_cons_ok_stop _ _ _ _ _ ha hb]
        simp [hb']
      · rw [List.cons_append, runGames_cons_ok_cont _ _ _ _ _ ha hb,
          runGames_cons_ok_cont _ _ _ _ _ ha hb, ih ys (acc ++ found)]
        rcases h1 : runGames (acc ++ found) xs' with ⟨cs1, r1⟩
        cases r1 with
        | error e => simp
        | ok acc2 =>
          by_cases hc : TARGET_PUZZLES ≤ acc2.length
          · have hxs' : xs' ≠ [] := by
              intro hnil
              subst hnil
              rw [runGames_nil] at h1
              injection h1 with h1a h1b
              injection h1b with h1c
              exact hb (by rw [h1c]; exact hc)
            simp [hc, hxs']
          · simp [hc, List.append_assoc]

/-- The batch decomposition is only a pacing device: running the batch
loop over chunks of size m+1 is the same as running the inner loop over
the whole game list, because the inner loop's budget break and the outer
loop's budget break test the same condition. -/
lemma runBatches_chunks (m : Nat) :
    ∀ (k : Nat) (l : List (Nat × Game)), l.length ≤ k →
      ∀ acc, runBatches acc (chunks (m + 1) l) = runGames acc l := by
  intro k
  induction k with
  | zero =>
    intro l hl acc
    obtain rfl : l = [] := List.eq_nil_of_length_eq_zero (Nat.le_zero.mp hl)
    rw [chunks]
    rfl
  | succ k ih =>
    intro l hl acc
    match l with
    | [] => rw [chunks]; rfl
    | x :: xs =>
      rw [chunks]
      have hsplit : x :: xs = (x :: xs).take (m + 1) ++ (x :: xs).drop (m + 1) :=
        (List.take_append_drop _ _).symm
      have hlen : (xs.drop m).length ≤ k := by
        simp only [List.length_cons] at hl
        simp only [List.length_drop]
        omega
      have hne : (x :: xs).take (m + 1) ≠ [] := by simp
      have hdrop : (x :: xs).drop (m + 1) = xs.drop m := by
        simp [List.drop_succ_cons]
      conv_rhs => rw [hsplit]
      rw [runGames_append]
      rcases hr : runGames acc ((x :: xs).take (m + 1)) with ⟨cs, res⟩
      cases res with
      | error e =>
        rw [Nat.add_sub_cancel, runBatches_cons_error _ _ _ _ (by rw [hr])]
        have hr' := hr
        simp only [List.take_succ_cons] at hr'
        simp [hr, hr']
      | ok acc' =>
        by_cases hbudget : TARGET_PUZZLES ≤ acc'.length
        · rw [Nat.add_sub_cancel, runBatches_cons_ok_stop _ _ _ _ (by rw [hr]) hbudget]
          have hr' := hr
          simp only [List.take_succ_cons] at hr'
          simp [hr, hr', hbudget, hne]
        · rw [Nat.add_sub_cancel, runBatches_cons_ok_cont _ _ _ _ (by rw [hr]) hbudget]
          rw [ih (xs.drop m) hlen acc']
          have hr' := hr
          simp only [List.take_succ_cons] at hr'
          simp [hr, hr', hbudget, hdrop]

/-- With the worker's constants, the batch loop over chunks of
`BATCH_SIZE` equals the plain game-by-game loop. -/
lemma runBatches_eq_runGames (l : List (Nat × Game)) (acc : List Puzzle) :
    runBatches acc (chunks BATCH_SIZE l) = runGames acc l := by
  rw [show BATCH_SIZE = 4 + 1 from rfl]
  exact runBatches_chunks 4 l.length l le_rfl acc

/-! ## Run extraction and call-trace facts (C2, C5, C6) -/

/-- `generate_puzzles` in terms of the flat game loop. -/
lemma generate_puzzles_eq (games : List Game) :
    generate_puzzles games =
      (match (runGames [] games.enum).2 with
       | .error e => ⟨(runGames [] games.enum).1, 0, .error e⟩
       | .ok acc =>
         ⟨(runGames [] games.enum).1, 1, .ok (rankPuzzles TARGET_PUZZLES acc)⟩) := by
  simp only [generate_puzzles, runBatches_eq_runGames]

lemma generate_puzzles_calls (games : List Game) :
    (generate_puzzles games).calls = (runGames [] games.enum).1 := by
  rw [generate_puzzles_eq]
  cases (runGames [] games.enum).2 <;> rfl

lemma generate_puzzles_of_error (games : List Game) (e : RunErr)
    (h : (runGames [] games.enum).2 = .error e) :
    generate_puzzles games = ⟨(runGames [] games.enum).1, 0, .error e⟩ := by
  rw [generate_puzzles_eq, h]

lemma generate_puzzles_of_ok (games : List Game) (acc : List Puzzle)
    (h : (runGames [] games.enum).2 = .ok acc) :
    generate_puzzles games =
      ⟨(runGames [] games.enum).1, 1, .ok (rankPuzzles TARGET_PUZZLES acc)⟩ := by
  rw [generate_puzzles_eq, h]

/-- A ply on which the analysis loop can proceed: the move applies and
the engine replies with a score. -/
def plyFine : Ply → Bool
  | .ok p =>
    match p.resp with
    | .info _ => true
    | .dead => false
  | .illegal => false

/-- On a game whose plies are all fine, `engine.analyse` is called for
every ply, in order. -/
lemma analyzeGo_calls_fine (g : Game) :
    ∀ (i : Nat) (prev : Option ℚ), (∀ pl ∈ g, plyFine pl = true) →
      (analyzeGo i prev g).1 = List.range' i g.length := by
  induction g with
  | nil => intro i prev _; rfl
  | cons x rest ih =>
    intro i prev h
    match x with
    | .illegal =>
      have := h _ (List.mem_cons_self _ _)
      simp [plyFine] at this
    | .ok p =>
      have hx := h _ (List.mem_cons_self _ _)
      match hresp : p.resp with
      | .dead => simp [plyFine, hresp] at hx
      | .info s =>
        simp only [analyzeGo, hresp, List.length_cons, List.range'_succ]
        rw [ih (i + 1) (some (scoreUsed s p.turn))
          (fun pl hpl => h pl (List.mem_cons_of_mem _ hpl))]

/-- The number of candidates a game contributes when its analysis
returns normally (0 when it raises). -/
def okFoundLen (g : Game) : Nat :=
  match (analyze_game g).2 with
  | .ok ps => ps.length
  | .error _ => 0

/-- The size the candidate accumulator would reach after the listed
games. -/
def candCount (games : List Game) : Nat := (games.map okFoundLen).sum

lemma candCount_nil : candCount [] = 0 := rfl

lemma candCount_cons (g : Game) (rest : List Game) :
    candCount (g :: rest) = okFoundLen g + candCount rest := by
  simp [candCount]

/-- Whenever the loop's trace mentions a game index at all, that game's
whole `analyse` trace is contained in the loop's trace: the per-game
analysis is never cancelled from outside. -/
lemma runGames_calls_complete :
    ∀ (l : List (Nat × Game)) (acc : List Puzzle) (gi j0 : Nat),
      (gi, j0) ∈ (runGames acc l).1 →
      ∃ g, (gi, g) ∈ l ∧ ∀ j ∈ (analyze_game g).1, (gi, j) ∈ (runGames acc l).1 := by
  intro l
  induction l with
  | nil => intro acc gi j0 h; simp [runGames_nil] at h
  | cons x rest ih =>
    intro acc gi j0 h
    obtain ⟨gi', g'⟩ := x
    cases ha : (analyze_game g').2 with
    | error e =>
      rw [runGames_cons_error _ _ _ _ _ ha] at h ⊢
      obtain ⟨j, hj, hjeq⟩ := List.mem_map.mp h
      injection hjeq with h1 h2
      subst h1
      exact ⟨g', List.mem_cons_self _ _,
        fun j hj => List.mem_map.mpr ⟨j, hj, rfl⟩⟩
    | ok found =>
      by_cases hb : TARGET_PUZZLES ≤ (acc ++ found).length
      · rw [runGames_cons_ok_stop _ _ _ _ _ ha hb] at h ⊢
        obtain ⟨j, hj, hjeq⟩ := List.mem_map.mp h
        injection hjeq with h1 h2
        subst h1
        exact ⟨g', List.mem_cons_self _ _,
          fun j hj => List.mem_map.mpr ⟨j, hj, rfl⟩⟩
      · rw [runGames_cons_ok_cont _ _ _ _ _ ha hb] at h ⊢
        rcases List.mem_append.mp h with h | h
        · obtain ⟨j, hj, hjeq⟩ := List.mem_map.mp h
          injection hjeq with h1 h2
          subst h1
          exact ⟨g', List.mem_cons_self _ _, fun j hj =>
            List.mem_append.mpr (Or.inl (List.mem_map.mpr ⟨j, hj, rfl⟩))⟩
        · obtain ⟨g, hg, hall⟩ := ih (acc ++ found) gi j0 h
          exact ⟨g, List.mem_cons_of_mem _ hg, fun j hj =>
            List.mem_append.mpr (Or.inr (hall j hj))⟩

/-- Budget enforcement over the flat loop: if the accumulator would
already hold the target count after the first `k + 1 - i` games, the
trace never mentions a game index beyond `k`. -/
lemma runGames_budget_stop :
    ∀ (games : List Game) (i : Nat) (acc : List Puzzle) (k : Nat),
      acc.length < TARGET_PUZZLES →
      TARGET_PUZZLES ≤ acc.length + candCount (games.take (k + 1 - i)) →
      ∀ gj ∈ (runGames acc (games.enumFrom i)).1, gj.1 ≤ k := by
  intro games
  induction games with
  | nil => intro i acc k h1 h2 gj hgj; simp [runGames_nil] at hgj
  | cons g rest ih =>
    intro i acc k h1 h2 gj hgj
    have hik : i ≤ k := by
      by_contra hik
      have h0 : k + 1 - i = 0 := by omega
      rw [h0] at h2
      simp [candCount] at h2
      omega
    have e1 : k + 1 - i = (k - i) + 1 := by omega
    rw [e1, List.take_succ_cons, candCount_cons] at h2
    rw [List.enumFrom_cons] at hgj
    cases ha : (analyze_game g).2 with
    | error e =>
      rw [runGames_cons_error _ _ _ _ _ ha] at hgj
      obtain ⟨j, hj, rfl⟩ := List.mem_map.mp hgj
      exact hik
    | ok found =>
      have e2 : okFoundLen g = found.length := by simp [okFoundLen, ha]
      rw [e2] at h2
      by_cases hb : TARGET_PUZZLES ≤ (acc ++ found).length
      · rw [runGames_cons_ok_stop _ _ _ _ _ ha hb] at hgj
        obtain ⟨j, hj, rfl⟩ := List.mem_map.mp hgj
        exact hik
      · rw [runGames_cons_ok_cont _ _ _ _ _ ha hb] at hgj
        rcases List.mem_append.mp hgj with hgj | hgj
        · obtain ⟨j, hj, rfl⟩ := List.mem_map.mp hgj
          exact hik
        · refine ih (i + 1) (acc ++ found) k ?_ ?_ gj hgj
          · simpa using Nat.lt_of_not_le hb
          · simp only [List.length_append]
            have e3 : k + 1 - (i + 1) = k - i := by omega
            rw [e3]
            omega

/-- If the first `gi` games analyze normally without filling the budget
and game `gi` raises, the flat loop raises that error, and the trace
stops at game `gi`. -/
lemma runGames_error_at :
    ∀ (games : List Game) (i : Nat) (acc : List Puzzle) (gi : Nat) (e : RunErr),
      (∀ m < gi, ∃ ps, (analyze_game (games.getD m default)).2 = .ok ps) →
      acc.length + candCount (games.take gi) < TARGET_PUZZLES →
      (analyze_game (games.getD gi default)).2 = .error e →
      (runGames acc (games.enumFrom i)).2 = .error e ∧
      ∀ gj ∈ (runGames acc (games.enumFrom i)).1, gj.1 ≤ i + gi := by
  intro games
  induction games with
  | nil =>
    intro i acc gi e _ _ herr
    simp [List.getD_nil, analyze_game, analyzeGo] at herr
  | cons g rest ih =>
    intro i acc gi e hprev hbud herr
    rw [List.enumFrom_cons]
    match gi with
    | 0 =>
      simp only [List.getD_cons_zero] at herr
      rw [runGames_cons_error _ _ _ _ _ herr]
      refine ⟨rfl, ?_⟩
      intro gj hgj
      obtain ⟨j, hj, rfl⟩ := List.mem_map.mp hgj
      simp
    | k + 1 =>
      obtain ⟨found, hfound⟩ := hprev 0 (Nat.succ_pos k)
      simp only [List.getD_cons_zero] at hfound
      have e2 : okFoundLen g = found.length := by simp [okFoundLen, hfound]
      rw [List.take_succ_cons, candCount_cons, e2] at hbud
      have hblen : ¬ TARGET_PUZZLES ≤ (acc ++ found).length := by
        simp only [List.length_append]
        omega
      rw [runGames_cons_ok_cont _ _ _ _ _ hfound hblen]
      have ihh := ih (i + 1) (acc ++ found) k e
        (fun m hm => by
          have hk := hprev (m + 1) (Nat.succ_lt_succ hm)
          simpa using hk)
        (by
          simp only [List.length_append]
          omega)
        (by simpa using herr)
      refine ⟨ihh.1, ?_⟩
      intro gj hgj
      rcases List.mem_append.mp hgj with hgj | hgj
      · obtain ⟨j, hj, rfl⟩ := List.mem_map.mp hgj
        simp
      · have hb := ihh.2 gj hgj
        omega

/-- A ply that applies and gets a centipawn reply. -/
def finePly : PlyOk := ⟨"f0", "e2e4", true, .info ⟨.cp 20, true⟩⟩

/-- A game whose second move cannot be applied. -/
def badGame : Game := [Ply.ok finePly, Ply.illegal]

/-- A one-move game that analyzes normally. -/
def goodGame : Game := [Ply.ok finePly]

/-- A game on which the engine dies at the first `analyse` call. -/
def deadGame : Game := [Ply.ok ⟨"f0", "e2e4", true, .dead⟩]

/-- C2, amended: (a) budget enforcement — if the accumulator holds the
target count once the first k+1 games are processed, no `engine.analyse`
call is made for any later game; (b) no mid-game cancellation — once a
game's analysis starts, every one of its moves is evaluated, provided the
engine does not fail on that game and all of its moves apply (an engine
failure or an inapplicable move aborts the analysis at that ply). -/
theorem C2_budget_and_full_evaluation :
    (∀ (games : List Game) (k : Nat),
        TARGET_PUZZLES ≤ candCount (games.take (k + 1)) →
        ∀ gj ∈ (generate_puzzles games).calls, gj.1 ≤ k) ∧
    (∀ (games : List Game) (gi j0 : Nat) (g : Game),
        (gi, j0) ∈ (generate_puzzles games).calls →
        games[gi]? = some g →
        (∀ pl ∈ g, plyFine pl = true) →
        ∀ j < g.length, (gi, j) ∈ (generate_puzzles games).calls) := by
  constructor
  · intro games k hcand gj hgj
    rw [generate_puzzles_calls] at hgj
    refine runGames_budget_stop games 0 [] k ?_ ?_ gj hgj
    · simp [TARGET_PUZZLES]
    · simpa using hcand
  · intro games gi j0 g hmem hget hfine j hj
    rw [generate_puzzles_calls] at hmem ⊢
    obtain ⟨g', hg', hall⟩ := runGames_calls_complete games.enum [] gi j0 hmem
    have hgg : g' = g := by
      have := List.mk_mem_enum_iff_getElem?.mp hg'
      rw [hget] at this
      exact (Option.some.inj this).symm
    subst hgg
    apply hall
    rw [analyze_game, analyzeGo_calls_fine g' 0 none hfine]
    simp [hj]

/-- C2, counterexample to the claim as stated: in a game whose second
move cannot be applied, analysis starts (its first position is
evaluated), yet its second move is never evaluated, and the engine did
not fail — the run aborts with IllegalMoveError instead. -/
theorem C2_counterexample :
    (0, 0) ∈ (generate_puzzles [badGame]).calls ∧
    1 < badGame.length ∧
    (0, 1) ∉ (generate_puzzles [badGame]).calls ∧
    (generate_puzzles [badGame]).result ≠ .error .engineFailure := by
  have h : generate_puzzles [badGame] = ⟨[(0, 0)], 0, .error .illegalMove⟩ := by
    rw [generate_puzzles_eq]
    rfl
  rw [h]
  refine ⟨by simp, by simp [badGame], by simp, by simp⟩

/-- Witness for C2 at a concrete one-game input whose single move is
fine: position 0 of game 0 is in the call trace, and the theorem's full
evaluation part re-derives that membership for index 0. -/
theorem C2_budget_and_full_evaluation_witness :
    ([goodGame] : List Game)[0]? = some goodGame ∧
    0 < goodGame.length ∧
    (0, 0) ∈ (generate_puzzles [goodGame]).calls := by
  have hcalls : (generate_puzzles [goodGame]).calls = [(0, 0)] := by
    rw [generate_puzzles_calls]
    rfl
  have hmem : (0, 0) ∈ (generate_puzzles [goodGame]).calls := by
    rw [hcalls]
    simp
  have hfine : ∀ pl ∈ goodGame, plyFine pl = true := by
    intro pl hpl
    simp only [goodGame, List.mem_singleton] at hpl
    subst hpl
    rfl
  exact ⟨rfl, by simp [goodGame],
    C2_budget_and_full_evaluation.2 [goodGame] 0 0 goodGame hmem rfl hfine 0
      (by simp [goodGame])⟩

/-- C5, amended: on a run where no exception is raised the engine is
quit exactly once; on a run where analysis raises, the error surfaces
with the engine never quit (the subprocess is leaked). -/
theorem C5_engine_quit (games : List Game) :
    (∀ l, (generate_puzzles games).result = .ok l →
        (generate_puzzles games).quitCount = 1) ∧
    (∀ e, (generate_puzzles games).result = .error e →
        (generate_puzzles games).quitCount = 0) := by
  cases hr : (runGames [] games.enum).2 with
  | error e =>
    rw [generate_puzzles_of_error games e hr]
    exact ⟨fun l hl => by simp at hl, fun e' _ => rfl⟩
  | ok acc =>
    rw [generate_puzzles_of_ok games acc hr]
    exact ⟨fun l _ => rfl, fun e' he' => by simp at he'⟩

/-- C5, counterexample to the claim as stated: when the engine dies
during analysis the error surfaces without `engine.quit()` ever running,
so the subprocess is not terminated (let alone exactly once). -/
theorem C5_counterexample :
    (generate_puzzles [deadGame]).result = .error .engineFailure ∧
    (generate_puzzles [deadGame]).quitCount = 0 ∧
    (generate_puzzles [deadGame]).quitCount ≠ 1 := by
  have h : generate_puzzles [deadGame] = ⟨[(0, 0)], 0, .error .engineFailure⟩ := by
    rw [generate_puzzles_eq]
    rfl
  rw [h]
  exact ⟨rfl, rfl, by simp⟩

/-- Witness for C5 at the empty input, a normally returning run. -/
theorem C5_engine_quit_witness : (generate_puzzles []).quitCount = 1 :=
  (C5_engine_quit []).1 [] (by rw [generate_puzzles_nil])

/-- C6, amended: when the first games analyze normally without filling
the budget and a move of the next game cannot be applied, the
IllegalMoveError escapes the batch loop: the run aborts with the error
(no puzzle list, engine not quit) and no later game is processed. -/
theorem C6_illegal_move_aborts_run (games : List Game) (gi : Nat)
    (hprev : ∀ m < gi, ∃ ps, (analyze_game (games.getD m default)).2 = .ok ps)
    (hbud : candCount (games.take gi) < TARGET_PUZZLES)
    (herr : (analyze_game (games.getD gi default)).2 = .error .illegalMove) :
    (generate_puzzles games).result = .error .illegalMove ∧
    (generate_puzzles games).quitCount = 0 ∧
    ∀ gj ∈ (generate_puzzles games).calls, gj.1 ≤ gi := by
  obtain ⟨h1, h2⟩ := runGames_error_at games 0 [] gi .illegalMove hprev
    (by simpa using hbud) herr
  have h1' : (runGames [] games.enum).2 = .error .illegalMove := h1
  rw [generate_puzzles_of_error games _ h1']
  refine ⟨rfl, rfl, ?_⟩
  intro gj hgj
  have := h2 gj hgj
  omega

/-- C6, counterexample to the claim as stated: with a first game whose
second move cannot be applied and a healthy second game, the exception
escapes the batch loop (the run returns the error, not a puzzle list)
and the second game is never analyzed. -/
theorem C6_counterexample :
    (generate_puzzles [badGame, goodGame]).result = .error .illegalMove ∧
    ∀ j, (1, j) ∉ (generate_puzzles [badGame, goodGame]).calls := by
  have h : generate_puzzles [badGame, goodGame] =
      ⟨[(0, 0)], 0, .error .illegalMove⟩ := by
    rw [generate_puzzles_eq]
    rfl
  rw [h]
  exact ⟨rfl, by simp⟩

/-- Witness for C6 at a one-game input whose second move is illegal. -/
theorem C6_illegal_move_aborts_run_witness :
    (generate_puzzles [badGame]).result = .error .illegalMove ∧
    (generate_puzzles [badGame]).quitCount = 0 ∧
    ((0, 0) : Nat × Nat).1 ≤ 0 := by
  have h := C6_illegal_move_aborts_run [badGame] 0
    (fun m hm => absurd hm (Nat.not_lt_zero m))
    (by simp [candCount, TARGET_PUZZLES])
    rfl
  have hc : (generate_puzzles [badGame]).calls = [(0, 0)] := by
    rw [generate_puzzles_calls]
    rfl
  exact ⟨h.1, h.2.1, h.2.2 (0, 0) (by rw [hc]; simp)⟩

/-! ## A concrete two-move run producing one puzzle (witness inputs) -/

/-- First ply of the witness game: the engine replies 0 centipawns. -/
def wPly0 : PlyOk := ⟨"wf0", "w0", true, .info ⟨.cp 0, true⟩⟩

/-- Second ply of the witness game: the engine replies 200 centipawns, a
2-pawn swing from the previous evaluation. -/
def wPly1 : PlyOk := ⟨"wf1", "w1", true, .info ⟨.cp 200, true⟩⟩

/-- A two-move game whose second position triggers one candidate. -/
def wGame : Game := [Ply.ok wPly0, Ply.ok wPly1]

/-- The single puzzle the witness game yields. -/
def wPz : Puzzle := ⟨"wf1", 2, "w1", 2⟩

lemma wGame_analyze : (analyze_game wGame).2 = .ok [wPz] := by
  norm_num [analyze_game, analyzeGo, wGame, wPly0, wPly1, wPz, scoreUsed,
    PovScore.pov, EngScore.score, MIN_EVAL_SWING, round2, roundHalfEven,
    abs_of_nonneg]

lemma wRunGames : (runGames [] ([wGame] : List Game).enum).2 = .ok [wPz] := by
  have hb : ¬ TARGET_PUZZLES ≤ (([] : List Puzzle) ++ [wPz]).length := by
    simp [TARGET_PUZZLES]
  have h2 : ([wGame] : List Game).enum = [(0, wGame)] := rfl
  rw [h2, runGames_cons_ok_cont [] 0 wGame [] [wPz] wGame_analyze hb]
  simp [runGames_nil]

lemma wBatches : (runBatches [] (chunks BATCH_SIZE ([wGame] : List Game).enum)).2 =
    .ok [wPz] := by
  rw [runBatches_eq_runGames]
  exact wRunGames

lemma wRun : (generate_puzzles [wGame]).result = .ok [wPz] := by
  rw [generate_puzzles_of_ok [wGame] [wPz] wRunGames]
  simp [rankPuzzles, pySortDesc, wPz, TARGET_PUZZLES]

/-- Witness for C9: the concrete run returns one puzzle, whose swing is
at least the threshold. -/
theorem C9_output_swing_ge_threshold_witness :
    (generate_puzzles [wGame]).result = .ok [wPz] ∧ MIN_EVAL_SWING ≤ wPz.swing :=
  ⟨wRun, C9_output_swing_ge_threshold [wGame] [wPz] wRun wPz (by simp)⟩

/-- Witness for C3 at the concrete one-puzzle run. -/
theorem C3_ranked_descending_witness :
    List.Chain' (fun p1 p2 : Puzzle => p2.swing ≤ p1.swing) [wPz] :=
  C3_ranked_descending.1 [wGame] [wPz] wRun

/-- Witness for C4 at the concrete one-puzzle run: the single-element
output has length min 8 1. -/
theorem C4_output_length_witness :
    ([wPz] : List Puzzle).length = min TARGET_PUZZLES ([wPz] : List Puzzle).length :=
  C4_output_length [wGame] [wPz] [wPz] wBatches wRun
